import Mathlib

/-
Verification development for the ownership inference core of the compiler:
the data-flow path machinery of Compiler/Ownership/DataFlowPath.py and the
signature normalization of Compiler/Ownership/Normalizer.py, shallowly
embedded as executable Lean definitions.
-/

set_option maxHeartbeats 1000000

namespace Ownership

/-! ## Variable identities and the Allocator -/

/-- Identity of an ownership variable (a monotone counter value). -/
abbrev OwnershipVar := Nat

/-- Identity of a group (region) variable. -/
abbrev GroupVar := Nat

/-- Pair of an ownership variable and a group variable, minted together.
Modelled from the spec: TypeVariableInfo.py is not under src; spec section 3.2
describes it as an (ownership_var, group_var) pair minted atomically. -/
structure TypeVariableInfo where
  ownership_var : OwnershipVar
  group_var : GroupVar
deriving DecidableEq, Repr

/-- Mints fresh ownership variables, group variables and TypeVariableInfo
pairs. Modelled from the spec: Allocator.py is not under src; spec section 4.1
specifies monotone, never-reused counters, one identity space per kind. -/
structure Allocator where
  nextOwnership : Nat
  nextGroup : Nat
deriving DecidableEq, Repr

/-- Fresh allocator, as constructed by Allocator.Allocator(). -/
def allocatorNew : Allocator := { nextOwnership := 0, nextGroup := 0 }

/-- Mint the next ownership variable. -/
def Allocator.nextOwnershipVar (a : Allocator) : OwnershipVar × Allocator :=
  (a.nextOwnership, { a with nextOwnership := a.nextOwnership + 1 })

/-- Mint the next group variable. -/
def Allocator.nextGroupVar (a : Allocator) : GroupVar × Allocator :=
  (a.nextGroup, { a with nextGroup := a.nextGroup + 1 })

/-- Mint a fresh (ownership, group) pair. -/
def Allocator.nextTypeVariableInfo (a : Allocator) : TypeVariableInfo × Allocator :=
  let (o, a1) := a.nextOwnershipVar
  let (g, a2) := a1.nextGroupVar
  (⟨o, g⟩, a2)

/-! ## MemberInfo -/

/-- Kind tag of a projection step; the source only uses MemberInfo.FieldKind. -/
inductive MemberKindType where
  | field
deriving DecidableEq, Repr

/-- Kind of a projection step: a field projection at an index.
Modelled from the spec: MemberInfo.py is not under src; spec section 3.3 and
the uses in DataFlowPath.py give fields kind.type and kind.index. -/
structure MemberKind where
  type : MemberKindType
  index : Nat
deriving DecidableEq, Repr

/-- One projection step rooted at a group variable.
Modelled from the spec: MemberInfo.py is not under src; spec section 3.3 gives
fields root, kind and info. -/
structure MemberInfo where
  root : GroupVar
  kind : MemberKind
  info : TypeVariableInfo
deriving DecidableEq, Repr

/-! ## Symbolic data-flow values

Embeds the classes Value, FieldAccess and Record of
src/Compiler/Ownership/DataFlowPath.py as one inductive type. The Value class
carries a debug-only source field. -/

inductive SymValue where
  | value (source : Option String)
  | fieldAccess (receiver : SymValue) (index : Nat)
  | record (val : SymValue) (index : Nat)
deriving DecidableEq, Repr

/-- Structural size, used to show the normalization loop terminates. -/
def SymValue.size : SymValue → Nat
  | .value _ => 1
  | .fieldAccess r _ => r.size + 1
  | .record v _ => v.size + 1

/-- One normalization pass, as the normalize methods of Value, FieldAccess and
Record: a FieldAccess over a Record with the same index reduces to the record
payload and reports a change; otherwise the pass normalizes the receiver and
rebuilds (for a mismatched Record receiver the receiver normalization, which
is Record.normalize, is inlined: it normalizes the record payload). -/
def SymValue.normalize : SymValue → SymValue × Bool
  | .value s => (.value s, false)
  | .record v i =>
    let p := SymValue.normalize v
    (.record p.1 i, p.2)
  | .fieldAccess (.value s) i => (.fieldAccess (.value s) i, false)
  | .fieldAccess (.record v j) i =>
    if j = i then (v, true)
    else
      let p := SymValue.normalize v
      (.fieldAccess (.record p.1 j) i, p.2)
  | .fieldAccess (.fieldAccess r j) i =>
    let p := SymValue.normalize (.fieldAccess r j)
    (.fieldAccess p.1 i, p.2)

/-- Validity test, as the isValid methods: a FieldAccess over a Record returns
true or false by comparing the indices and does not descend further; a
FieldAccess over anything else is valid outright; a Record descends into its
payload; Value is valid. -/
def SymValue.isValid : SymValue → Bool
  | .value _ => true
  | .fieldAccess r i =>
    match r with
    | .record _ j => j == i
    | _ => true
  | .record v _ => v.isValid

theorem SymValue.normalize_value (s : Option String) :
    SymValue.normalize (.value s) = (.value s, false) := rfl

theorem SymValue.normalize_record (v : SymValue) (i : Nat) :
    SymValue.normalize (.record v i) =
      (.record (SymValue.normalize v).1 i, (SymValue.normalize v).2) := rfl

theorem SymValue.normalize_fa_value (s : Option String) (i : Nat) :
    SymValue.normalize (.fieldAccess (.value s) i) = (.fieldAccess (.value s) i, false) := rfl

theorem SymValue.normalize_fa_fa (r : SymValue) (j i : Nat) :
    SymValue.normalize (.fieldAccess (.fieldAccess r j) i) =
      (.fieldAccess (SymValue.normalize (.fieldAccess r j)).1 i,
       (SymValue.normalize (.fieldAccess r j)).2) := rfl

theorem SymValue.normalize_fa_record (v : SymValue) (j i : Nat) :
    SymValue.normalize (.fieldAccess (.record v j) i) =
      if j = i then (v, true)
      else (.fieldAccess (.record (SymValue.normalize v).1 j) i, (SymValue.normalize v).2) := by
  rw [SymValue.normalize]

theorem SymValue.normalize_size_le (v : SymValue) : (SymValue.normalize v).1.size ≤ v.size := by
  induction v with
  | value s => simp [SymValue.normalize_value, SymValue.size]
  | record w i ih =>
    rw [SymValue.normalize_record]
    simp only [SymValue.size]
    omega
  | fieldAccess r i ih =>
    cases r with
    | value s => simp [SymValue.normalize_fa_value, SymValue.size]
    | record w j =>
      rw [SymValue.normalize_fa_record]
      by_cases h : j = i
      · simp only [if_pos h, SymValue.size]
        omega
      · rw [SymValue.normalize_record] at ih
        simp only [SymValue.size] at ih
        simp only [if_neg h, SymValue.size]
        omega
    | fieldAccess r2 j =>
      rw [SymValue.normalize_fa_fa]
      simp only [SymValue.size] at ih ⊢
      omega

theorem SymValue.normalize_size_lt (v : SymValue) (h : (SymValue.normalize v).2 = true) :
    (SymValue.normalize v).1.size < v.size := by
  induction v with
  | value s => simp [SymValue.normalize_value] at h
  | record w i ih =>
    rw [SymValue.normalize_record] at h ⊢
    simp only [SymValue.size] at *
    have := ih h
    omega
  | fieldAccess r i ih =>
    cases r with
    | value s => simp [SymValue.normalize_fa_value] at h
    | record w j =>
      rw [SymValue.normalize_fa_record] at h ⊢
      by_cases hj : j = i
      · have := SymValue.normalize_size_le w
        simp only [if_pos hj, SymValue.size]
        omega
      · simp only [if_neg hj] at h
        rw [SymValue.normalize_record] at ih
        simp only [SymValue.size] at ih
        have := ih h
        simp only [if_neg hj, SymValue.size]
        omega
    | fieldAccess r2 j =>
      rw [SymValue.normalize_fa_fa] at h ⊢
      simp only [SymValue.size] at ih ⊢
      have := ih h
      omega

/-- Runs normalize until it reports no change, as the fixed-point loop in
InferenceEngine.createPaths. -/
def SymValue.normalizeLoop (v : SymValue) : SymValue :=
  let p := SymValue.normalize v
  if h : p.2 = true then SymValue.normalizeLoop p.1 else p.1
termination_by v.size
decreasing_by exact SymValue.normalize_size_lt v h

theorem SymValue.normalizeLoop_step (v w : SymValue) (h : SymValue.normalize v = (w, true)) :
    SymValue.normalizeLoop v = SymValue.normalizeLoop w := by
  rw [SymValue.normalizeLoop]
  simp [h]

theorem SymValue.normalizeLoop_done (v w : SymValue) (h : SymValue.normalize v = (w, false)) :
    SymValue.normalizeLoop v = w := by
  rw [SymValue.normalizeLoop]
  simp [h]

theorem SymValue.size_pos (v : SymValue) : 0 < v.size := by
  cases v <;> simp [SymValue.size]

/-- Fuel-bounded version of the normalization loop. -/
def SymValue.normalizeLoopAux : Nat → SymValue → SymValue
  | 0, v => v
  | fuel + 1, v =>
    let p := SymValue.normalize v
    if p.2 then SymValue.normalizeLoopAux fuel p.1 else p.1

/-- Executable form of the normalization loop: the structural size of the
value bounds the number of iterations, see normalizeRun_eq_normalizeLoop. -/
def SymValue.normalizeRun (v : SymValue) : SymValue :=
  SymValue.normalizeLoopAux v.size v

theorem SymValue.normalizeLoopAux_eq (fuel : Nat) (v : SymValue) (h : v.size ≤ fuel) :
    SymValue.normalizeLoopAux fuel v = SymValue.normalizeLoop v := by
  induction fuel generalizing v with
  | zero => have := SymValue.size_pos v; omega
  | succ f ih =>
    show (if (SymValue.normalize v).2 then SymValue.normalizeLoopAux f (SymValue.normalize v).1
          else (SymValue.normalize v).1) = _
    by_cases hb : (SymValue.normalize v).2 = true
    · have hlt := SymValue.normalize_size_lt v hb
      rw [if_pos hb, ih _ (by omega),
        SymValue.normalizeLoop_step v (SymValue.normalize v).1 (by rw [← hb])]
    · simp only [Bool.not_eq_true] at hb
      rw [if_neg (by simp [hb]),
        SymValue.normalizeLoop_done v (SymValue.normalize v).1 (by rw [← hb])]

theorem SymValue.normalizeRun_eq_normalizeLoop (v : SymValue) :
    SymValue.normalizeRun v = SymValue.normalizeLoop v :=
  SymValue.normalizeLoopAux_eq v.size v (Nat.le_refl _)

/-! ## Spec-side validity predicates for comparison with isValid -/

/-- Test following the words of the claim: the value contains, at any depth, a
FieldAccess whose receiver is a Record with a different index. -/
def SymValue.containsMismatch : SymValue → Bool
  | .value _ => false
  | .fieldAccess r i =>
    (match r with
     | .record _ j => !(j == i)
     | _ => false) || r.containsMismatch
  | .record v _ => v.containsMismatch

/-- Strips the outermost Record wrappers from a value. -/
def SymValue.stripRecords : SymValue → SymValue
  | .record v _ => v.stripRecords
  | v => v

/-- Tests whether the top of a value is a FieldAccess over a Record with a
mismatched index. -/
def SymValue.topMismatch : SymValue → Bool
  | .fieldAccess (.record _ j) i => !(j == i)
  | _ => false

/-! ## Path splitting: buildSource, Record peeling, DataFlowPath

Embeds FieldAccess.buildSource / Value.buildSource and splitPath of
src/Compiler/Ownership/DataFlowPath.py. The Record class has no buildSource
method; a call on it raises AttributeError, which the embedding reports as
none. Likewise an out-of-range members[-1] access is none. -/

def SymValue.buildSource : SymValue → TypeVariableInfo → Allocator →
    Option (List MemberInfo × Allocator)
  | .value _, _, a => some ([], a)
  | .record _ _, _, _ => none
  | .fieldAccess r i, arg, a => do
    let (members, a1) ← SymValue.buildSource r arg a
    let root ← match r with
      | .value _ => some arg.group_var
      | _ => (members.getLast?).map (fun m => m.info.group_var)
    let (info, a2) := a1.nextTypeVariableInfo
    some (members ++ [{ root := root, kind := { type := .field, index := i }, info := info }], a2)

/-- One argument-to-result data flow, as the DataFlowPath class. -/
structure DataFlowPath where
  arg : TypeVariableInfo
  result : TypeVariableInfo
  src : List MemberInfo
  dest : List MemberInfo
deriving DecidableEq, Repr

/-- Well-formedness of a member chain relative to a root group: the first
member is rooted at the given group and every later member at the info group
of its predecessor. -/
def wellFormedChain : GroupVar → List MemberInfo → Bool
  | _, [] => true
  | g, m :: rest => (m.root == g) && wellFormedChain m.info.group_var rest

/-- Group at the open end of a chain built from the given root: the info group
of the last member, or the root itself when the chain is empty. -/
def chainEnd (g : GroupVar) (ms : List MemberInfo) : GroupVar :=
  match ms.getLast? with
  | none => g
  | some m => m.info.group_var

/-- Tests whether a symbolic value is the bare Value leaf. -/
def SymValue.isLeaf : SymValue → Bool
  | .value _ => true
  | _ => false

/-- Peels the outer Record wrappers into destination members, as the while
loop at the start of splitPath: the root of the new member is the result
group when the accumulated list is empty and otherwise the info group of its
last element, which is chainEnd of the accumulated list. -/
def peelRecords (resultGroup : GroupVar) : SymValue → List MemberInfo → Allocator →
    SymValue × List MemberInfo × Allocator
  | .record v i, dest, a =>
    let root := chainEnd resultGroup dest
    let p := a.nextTypeVariableInfo
    peelRecords resultGroup v
      (dest ++ [{ root := root, kind := { type := .field, index := i }, info := p.1 }]) p.2
  | v, dest, a => (v, dest, a)

/-- Decomposes a valid symbolic value into a DataFlowPath, as splitPath. -/
def splitPath (path : SymValue) (a : Allocator) : Option (DataFlowPath × Allocator) :=
  let p1 := a.nextTypeVariableInfo
  let p2 := p1.2.nextTypeVariableInfo
  let pr := peelRecords p2.1.group_var path [] p2.2
  match SymValue.buildSource pr.1 p1.1 pr.2.2 with
  | none => none
  | some q =>
    some ({ arg := p1.1, result := p2.1, src := q.1, dest := pr.2.1 }, q.2)

/-- Final loop of InferenceEngine.createPaths (the body run for each candidate
path that starts at an argument and ends at the end instruction), applied to
the already-built symbolic values: normalize to a fixed point, keep valid
values, and split each with a freshly constructed Allocator. -/
def finalizeStep (acc : List DataFlowPath) (sv : SymValue) : Option (List DataFlowPath) :=
  let n := sv.normalizeRun
  if n.isValid then do
    let pq ← splitPath n allocatorNew
    pure (acc ++ [pq.1])
  else pure acc

def finalizePaths (svs : List SymValue) : Option (List DataFlowPath) :=
  svs.foldlM finalizeStep []

/-- Modelled from the spec: the spec states that the allocator is shared
across all paths of one function (one Allocator constructed per function and
threaded through every splitPath call); written for comparison with
finalizePaths, which the source builds with a fresh Allocator per path. -/
def finalizePathsSharedSpec (svs : List SymValue) : Option (List DataFlowPath) := do
  let r ← svs.foldlM
    (fun (st : List DataFlowPath × Allocator) sv =>
      let n := sv.normalizeRun
      if n.isValid then do
        let (p, a1) ← splitPath n st.2
        pure (st.1 ++ [p], a1)
      else pure st)
    ([], allocatorNew)
  pure r.1

/-! ## Path enumeration over SCC groups

Embeds the table-building loop of InferenceEngine.createPaths: groups are the
SCC groups in topological order (g.items), deps is the dependency map, and the
table maps an instruction id to its list of prefix paths. The table is an
association list where the most recent binding shadows older ones, matching
dictionary assignment; a lookup of an absent key is a KeyError, reported as
none. -/

/-- Table from instruction id to the list of paths ending at it. -/
abbrev PathTable := List (Nat × List (List Nat))

/-- Contribution built in the else branch for one item: every path of every
dependency outside the group, extended with the item appended; dependencies
inside the group are skipped. -/
def crossGroupContribution (gitems : List Nat) (deps : Nat → List Nat) (table : PathTable)
    (item : Nat) : Option (List (List Nat)) :=
  (deps item).foldlM
    (fun acc dep =>
      if gitems.contains dep then pure acc
      else do
        let depPaths ← table.lookup dep
        pure (acc ++ depPaths.map (fun p => p ++ [item])))
    []

/-- Body of the inner loop of createPaths for one item of one group. -/
def processItem (gitems : List Nat) (deps : Nat → List Nat) (table : PathTable)
    (item : Nat) : Option PathTable :=
  if deps item = [] then some ((item, [[item]]) :: table)
  else do
    let itemPaths ← crossGroupContribution gitems deps table item
    pure ((item, itemPaths) :: table)

/-- Runs the table-building loop of createPaths over all groups. -/
def createPathTable (groups : List (List Nat)) (deps : Nat → List Nat) : Option PathTable :=
  groups.foldlM
    (fun table gitems => gitems.foldlM (fun t item => processItem gitems deps t item) table)
    []

/-! ## Ownership kinds and signatures

Embeds the data consumed and produced by Compiler/Ownership/Normalizer.py. The
ownership kind is modelled from the spec: Inference.py is not under src; spec
section 3.2 gives the kinds Owner and Borrow(source_group), and the source
only tests isinstance(x, Inference.Borrow). The signature record is modelled
from the spec: Signatures.py is not under src; spec section 3.6 gives the
fields args, result, members, borrows and allocator. -/

inductive OwnershipKind where
  | owner
  | borrow (source : GroupVar)
deriving DecidableEq, Repr

/-- Tests isinstance(k, Inference.Borrow). -/
def OwnershipKind.isBorrow : OwnershipKind → Bool
  | .borrow _ => true
  | .owner => false

structure FunctionOwnershipSignature where
  args : List TypeVariableInfo
  result : TypeVariableInfo
  members : List MemberInfo
  borrows : List OwnershipVar
  allocator : Allocator
deriving DecidableEq, Repr

/-! ## The Normalizer

Embeds the Normalizer class: an allocator plus two memo tables renaming
ownership and group variables. The tables are association lists where a new
binding is prepended; a binding is only added when the key is absent, matching
the dictionary updates of the source. -/

structure Normalizer where
  allocator : Allocator
  ownership_vars : List (Nat × Nat)
  group_vars : List (Nat × Nat)
deriving DecidableEq, Repr

/-- Fresh normalizer, as Normalizer.__init__. -/
def Normalizer.new : Normalizer :=
  { allocator := allocatorNew, ownership_vars := [], group_vars := [] }

/-- Memoized renaming of one ownership variable. -/
def Normalizer.normalizeOwnershipVar (n : Normalizer) (var : OwnershipVar) :
    OwnershipVar × Normalizer :=
  match n.ownership_vars.lookup var with
  | some v => (v, n)
  | none =>
    let (v, a) := n.allocator.nextOwnershipVar
    (v, { n with allocator := a, ownership_vars := (var, v) :: n.ownership_vars })

/-- Memoized renaming of one group variable. -/
def Normalizer.normalizeGroupVar (n : Normalizer) (var : GroupVar) :
    GroupVar × Normalizer :=
  match n.group_vars.lookup var with
  | some v => (v, n)
  | none =>
    let (v, a) := n.allocator.nextGroupVar
    (v, { n with allocator := a, group_vars := (var, v) :: n.group_vars })

/-- Renaming of a TypeVariableInfo, as Normalizer.normalize: the ownership
variable first, then the group variable. -/
def Normalizer.normalize (n : Normalizer) (info : TypeVariableInfo) :
    TypeVariableInfo × Normalizer :=
  let (o, n1) := n.normalizeOwnershipVar info.ownership_var
  let (g, n2) := n1.normalizeGroupVar info.group_var
  ({ ownership_var := o, group_var := g }, n2)

/-- Invariant of a normalizer memo table: every renamed value is below the
counter of the allocator, and no renamed value occurs twice. -/
def MemoInv (tbl : List (Nat × Nat)) (counter : Nat) : Prop :=
  (∀ kv ∈ tbl, kv.2 < counter) ∧ (tbl.map Prod.snd).Nodup

/-- Invariant of a normalizer: both memo tables satisfy the memo invariant
with respect to their counters. -/
def NormalizerInv (n : Normalizer) : Prop :=
  MemoInv n.ownership_vars n.allocator.nextOwnership ∧
    MemoInv n.group_vars n.allocator.nextGroup

instance (tbl : List (Nat × Nat)) (c : Nat) : Decidable (MemoInv tbl c) := by
  unfold MemoInv
  infer_instance

instance (n : Normalizer) : Decidable (NormalizerInv n) := by
  unfold NormalizerInv
  infer_instance

/-! ## Borrow filtering and member collection -/

/-- First loop of filterOutBorrowingMembers: the members whose ownership
variable occurs in the ownership dependencies of some argument group; an
argument group absent from the map contributes nothing. -/
def relevantMembers (signature : FunctionOwnershipSignature)
    (depMap : GroupVar → Option (List OwnershipVar)) (members : List MemberInfo) :
    List MemberInfo :=
  signature.args.foldl
    (fun acc arg =>
      match depMap arg.group_var with
      | none => acc
      | some vars => acc ++ members.filter (fun m => vars.contains m.info.ownership_var))
    []

/-- Second loop of filterOutBorrowingMembers: the ownership variables of the
relevant members whose ownership kind is Borrow; a variable absent from the
ownerships map is a KeyError, reported as none. -/
def borrowsOf (relevant : List MemberInfo)
    (ownerships : OwnershipVar → Option OwnershipKind) : Option (List OwnershipVar) :=
  relevant.foldlM
    (fun acc m => do
      let k ← ownerships m.info.ownership_var
      pure (if k.isBorrow then acc ++ [m.info.ownership_var] else acc))
    []

/-- Third loop of filterOutBorrowingMembers: the relevant members whose own
ownership variable is a borrow or whose group ownership dependencies contain
a borrow. -/
def onlyBorrowing (relevant : List MemberInfo)
    (depMap : GroupVar → Option (List OwnershipVar)) (borrows : List OwnershipVar) :
    Option (List MemberInfo) :=
  relevant.foldlM
    (fun acc m => do
      let vars ← depMap m.info.group_var
      let c := borrows.contains m.info.ownership_var || vars.any (fun o => borrows.contains o)
      pure (if c then acc ++ [m] else acc))
    []

/-- Filters the member list down to the members that carry a borrow, as
filterOutBorrowingMembers: first the members relevant to some argument group,
then the borrow set among them, then the members whose own ownership variable
is a borrow or whose group dependencies contain a borrow. A failed dictionary
lookup is none. -/
def filterOutBorrowingMembers (signature : FunctionOwnershipSignature)
    (depMap : GroupVar → Option (List OwnershipVar)) (members : List MemberInfo)
    (ownerships : OwnershipVar → Option OwnershipKind) :
    Option (List MemberInfo × List OwnershipVar) := do
  let relevant := relevantMembers signature depMap members
  let borrows ← borrowsOf relevant ownerships
  let obm ← onlyBorrowing relevant depMap borrows
  pure (obm, borrows)

/-- Stable insertion of a member into a list sorted by field index: the new
member goes after every element whose index is less than or equal to its
own. -/
def insertByIndex (m : MemberInfo) : List MemberInfo → List MemberInfo
  | [] => [m]
  | x :: xs =>
    if m.kind.index < x.kind.index then m :: x :: xs else x :: insertByIndex m xs

/-- Stable sort of sibling members ascending by field index, as
children.sort(key): elements with equal indices keep their original order. -/
def sortChildren (ms : List MemberInfo) : List MemberInfo :=
  ms.foldl (fun acc m => insertByIndex m acc) []

/-- Renaming of one member, as the clone updates in collectChildMembers: the
root first, then the info. -/
def Normalizer.renameMember (n : Normalizer) (m : MemberInfo) : MemberInfo × Normalizer :=
  let (root, n1) := n.normalizeGroupVar m.root
  let (info, n2) := n1.normalize m.info
  ({ m with root := root, info := info }, n2)

/-- Renaming of a list of members in order, threading the normalizer. -/
def Normalizer.renameMembers (n : Normalizer) (ms : List MemberInfo) :
    List MemberInfo × Normalizer :=
  ms.foldl (fun st m => let p := st.2.renameMember m; (st.1 ++ [p.1], p.2)) ([], n)

/-- Ordered, renamed collection of the members below one group, as
collectChildMembers: the immediate children sorted by field index are renamed
and emitted first, then the descendants of each child in the same order. The
recursion of the source can fail to terminate on cyclic member graphs
(RecursionError); fuel exhaustion is reported as none. -/
def collectChildMembers : Nat → Normalizer → GroupVar → List MemberInfo →
    Option (List MemberInfo × Normalizer)
  | 0, _, _, _ => none
  | fuel + 1, n, var, members =>
    let children := sortChildren (members.filter (fun m => m.root == var))
    let init := children.foldl
      (fun st child => let p := st.2.renameMember child; (st.1 ++ [p.1], p.2))
      (([] : List MemberInfo), n)
    children.foldlM
      (fun st child => do
        let p ← collectChildMembers fuel st.2 child.info.group_var members
        pure (st.1 ++ p.1, p.2))
      init

/-- Modelled from the spec: the canonical member order of spec section 4.8
step 3, without any renaming — the immediate children of the group sorted by
kind.index ascending, followed by the recursively collected descendants of
each child in the same child order. -/
def collectChildMembersSpec : Nat → GroupVar → List MemberInfo → Option (List MemberInfo)
  | 0, _, _ => none
  | fuel + 1, var, members =>
    let children := sortChildren (members.filter (fun m => m.root == var))
    children.foldlM
      (fun acc child => do
        let more ← collectChildMembersSpec fuel child.info.group_var members
        pure (acc ++ more))
      children

/-- Modelled from the spec: the full canonical member order, starting from
each argument group in declaration order. -/
def memberOrderSpec (fuel : Nat) (args : List TypeVariableInfo) (members : List MemberInfo) :
    Option (List MemberInfo) :=
  args.foldlM
    (fun acc arg => do
      let more ← collectChildMembersSpec fuel arg.group_var members
      pure (acc ++ more))
    []

/-! ## Signature normalization -/

/-- Normalizer state after renaming the arguments and the result of a
signature, in that order, starting from a fresh normalizer. -/
def normalizerAfterHeader (signature : FunctionOwnershipSignature) :
    (List TypeVariableInfo × TypeVariableInfo) × Normalizer :=
  let st := signature.args.foldl
    (fun st arg => let p := Normalizer.normalize st.2 arg; (st.1 ++ [p.1], p.2))
    (([] : List TypeVariableInfo), Normalizer.new)
  let (res, n2) := Normalizer.normalize st.2 signature.result
  ((st.1, res), n2)

/-- Runs normalizeFunctionOwnershipSignature and also reports the final state
of the signature object: the source mutates the signature fields only at the
very end, after borrow filtering, header renaming and member collection have
all succeeded, so on an exception the object is returned unchanged. -/
def normalizeFunctionOwnershipSignatureRun (fuel : Nat)
    (signature : FunctionOwnershipSignature)
    (depMap : GroupVar → Option (List OwnershipVar)) (members : List MemberInfo)
    (ownerships : OwnershipVar → Option OwnershipKind) :
    Option FunctionOwnershipSignature × FunctionOwnershipSignature :=
  match filterOutBorrowingMembers signature depMap members ownerships with
  | none => (none, signature)
  | some fb =>
    let hd := normalizerAfterHeader signature
    match signature.args.foldlM
        (fun st arg => do
          let p ← collectChildMembers fuel st.2 arg.group_var fb.1
          pure (st.1 ++ p.1, p.2))
        (([] : List MemberInfo), hd.2) with
    | none => (none, signature)
    | some q =>
      let s2 := { signature with
        args := hd.1.1, members := q.1, result := hd.1.2,
        allocator := q.2.allocator, borrows := fb.2 }
      (some s2, s2)

/-- Result of normalizeFunctionOwnershipSignature. -/
def normalizeFunctionOwnershipSignature (fuel : Nat)
    (signature : FunctionOwnershipSignature)
    (depMap : GroupVar → Option (List OwnershipVar)) (members : List MemberInfo)
    (ownerships : OwnershipVar → Option OwnershipKind) :
    Option FunctionOwnershipSignature :=
  (normalizeFunctionOwnershipSignatureRun fuel signature depMap members ownerships).1

/-! ## Claim theorems -/

/-- C5: for every field index i, normalizing the symbolic value
FieldAccess(Record(Value, i), i) to a fixed point by repeatedly calling
normalize while it reports a change yields the bare Value leaf. -/
theorem c5_normalize_constructor_roundtrip (i : Nat) (s : Option String) :
    SymValue.normalizeLoop (.fieldAccess (.record (.value s) i) i) = .value s := by
  have h1 : SymValue.normalize (.fieldAccess (.record (.value s) i) i) = (.value s, true) := by
    rw [SymValue.normalize_fa_record]
    simp
  rw [SymValue.normalizeLoop_step _ _ h1,
    SymValue.normalizeLoop_done _ _ (SymValue.normalize_value s)]

/-- C3 counterexample: a value containing, at depth one, a FieldAccess whose
receiver is a Record with a different index, on which isValid nevertheless
returns true, because the isValid of a FieldAccess over a non-Record receiver
does not recurse into the receiver. -/
theorem c3_counterexample :
    SymValue.isValid (.fieldAccess (.fieldAccess (.record (.value none) 0) 1) 2) = true ∧
      SymValue.containsMismatch (.fieldAccess (.fieldAccess (.record (.value none) 0) 1) 2)
        = true := by
  constructor <;> rfl

/-- C3 amended: isValid returns false exactly when the value, stripped of its
outer Record wrappers, is a FieldAccess whose immediate receiver is a Record
with a different index; isValid does not descend through a FieldAccess, so
mismatches deeper inside a FieldAccess receiver are not detected. -/
theorem c3_isValid_characterization (v : SymValue) :
    SymValue.isValid v = false ↔ SymValue.topMismatch v.stripRecords = true := by
  induction v with
  | value s => simp [SymValue.isValid, SymValue.stripRecords, SymValue.topMismatch]
  | record w i ih => simpa [SymValue.isValid, SymValue.stripRecords] using ih
  | fieldAccess r i ih =>
    cases r with
    | value s => simp [SymValue.isValid, SymValue.stripRecords, SymValue.topMismatch]
    | record w j => simp [SymValue.isValid, SymValue.stripRecords, SymValue.topMismatch]
    | fieldAccess r2 j => simp [SymValue.isValid, SymValue.stripRecords, SymValue.topMismatch]

/-! ## Chain well-formedness of split paths (C6) -/

theorem chainEnd_cons (g : GroupVar) (m : MemberInfo) (ms : List MemberInfo) :
    chainEnd g (m :: ms) = chainEnd m.info.group_var ms := by
  cases ms with
  | nil => simp [chainEnd]
  | cons m2 rest =>
    simp only [chainEnd, List.getLast?_cons_cons]
    cases hl : (m2 :: rest).getLast? with
    | none => simp at hl
    | some mlast => rfl

theorem wellFormedChain_append_singleton (g : GroupVar) (ms : List MemberInfo) (m : MemberInfo)
    (h1 : wellFormedChain g ms = true) (h2 : m.root = chainEnd g ms) :
    wellFormedChain g (ms ++ [m]) = true := by
  induction ms generalizing g with
  | nil =>
    simp [chainEnd] at h2
    simp [wellFormedChain, h2]
  | cons m0 rest ih =>
    simp only [wellFormedChain, Bool.and_eq_true, beq_iff_eq] at h1
    rw [chainEnd_cons] at h2
    simp only [List.cons_append, wellFormedChain, Bool.and_eq_true, beq_iff_eq]
    exact ⟨h1.1, ih _ h1.2 h2⟩

theorem buildSource_wellFormed (v : SymValue) :
    ∀ (arg : TypeVariableInfo) (a : Allocator) (ms : List MemberInfo) (a2 : Allocator),
      v.buildSource arg a = some (ms, a2) →
      wellFormedChain arg.group_var ms = true ∧ (ms = [] ↔ v.isLeaf = true) := by
  induction v with
  | value s =>
    intro arg a ms a2 h
    simp only [SymValue.buildSource, Option.some.injEq, Prod.mk.injEq] at h
    obtain ⟨h1, -⟩ := h
    subst h1
    simp [wellFormedChain, SymValue.isLeaf]
  | record w i ih =>
    intro arg a ms a2 h
    simp [SymValue.buildSource] at h
  | fieldAccess r i ih =>
    intro arg a ms a2 h
    cases r with
    | value s =>
      have hb : (SymValue.fieldAccess (.value s) i).buildSource arg a
          = some ([{ root := arg.group_var, kind := { type := .field, index := i },
                     info := a.nextTypeVariableInfo.1 }], a.nextTypeVariableInfo.2) := rfl
      rw [hb] at h
      simp only [Option.some.injEq, Prod.mk.injEq] at h
      obtain ⟨h1, -⟩ := h
      subst h1
      simp [wellFormedChain, SymValue.isLeaf]
    | record w j =>
      simp [SymValue.buildSource] at h
    | fieldAccess r2 j =>
      rw [SymValue.buildSource] at h
      cases hr : (SymValue.fieldAccess r2 j).buildSource arg a with
      | none => rw [hr] at h; simp at h
      | some pr =>
        obtain ⟨msr, a1⟩ := pr
        rw [hr] at h
        obtain ⟨hwf, hleaf⟩ := ih arg a msr a1 hr
        have hne : msr ≠ [] := by
          intro hmsr
          have := hleaf.mp hmsr
          simp [SymValue.isLeaf] at this
        obtain ⟨last, hlast⟩ : ∃ m, msr.getLast? = some m := by
          cases hm : msr.getLast? with
          | none => exact absurd (List.getLast?_eq_none_iff.mp hm) hne
          | some m => exact ⟨m, rfl⟩
        simp only [hlast, Option.bind_eq_bind, Option.some_bind, Option.map_some',
          Option.some.injEq, Prod.mk.injEq] at h
        obtain ⟨h1, -⟩ := h
        subst h1
        refine ⟨?_, by simp [SymValue.isLeaf]⟩
        refine wellFormedChain_append_singleton _ _ _ hwf ?_
        simp [chainEnd, hlast]

theorem peelRecords_wellFormed (v : SymValue) :
    ∀ (rg : GroupVar) (dest : List MemberInfo) (a : Allocator),
      wellFormedChain rg dest = true →
      wellFormedChain rg (peelRecords rg v dest a).2.1 = true := by
  induction v with
  | value s => intro rg dest a h; simpa [peelRecords] using h
  | fieldAccess r i ih => intro rg dest a h; simpa [peelRecords] using h
  | record w i ih =>
    intro rg dest a h
    rw [peelRecords]
    apply ih
    exact wellFormedChain_append_singleton _ _ _ h rfl

/-- C6: every DataFlowPath produced by splitPath has well-formed member
chains: in src the first member is rooted at arg.group_var and each later
member at the info group of its predecessor, and in dest the first member is
rooted at result.group_var and each later member at the info group of its
predecessor. -/
theorem c6_splitPath_wellFormed (v : SymValue) (a : Allocator) (p : DataFlowPath)
    (a2 : Allocator) (h : splitPath v a = some (p, a2)) :
    wellFormedChain p.arg.group_var p.src = true ∧
      wellFormedChain p.result.group_var p.dest = true := by
  simp only [splitPath] at h
  set arg := a.nextTypeVariableInfo.1 with harg
  set result := a.nextTypeVariableInfo.2.nextTypeVariableInfo.1 with hresult
  set aa2 := a.nextTypeVariableInfo.2.nextTypeVariableInfo.2 with haa2
  set pr := peelRecords result.group_var v [] aa2 with hpr
  cases hb : SymValue.buildSource pr.1 arg pr.2.2 with
  | none => rw [hb] at h; simp at h
  | some q =>
    rw [hb] at h
    simp only [Option.some.injEq, Prod.mk.injEq] at h
    obtain ⟨hp, -⟩ := h
    subst hp
    constructor
    · exact (buildSource_wellFormed pr.1 arg pr.2.2 q.1 q.2 (by rw [hb])).1
    · have := peelRecords_wellFormed v result.group_var [] aa2 (by simp [wellFormedChain])
      rw [← hpr] at this
      exact this

/-- C6 witness: splitPath applied at a concrete record-of-projection value
produces chains that are well formed. -/
theorem c6_witness :
    wellFormedChain 0
        [{ root := 0, kind := { type := .field, index := 0 },
           info := { ownership_var := 3, group_var := 3 } }] = true ∧
      wellFormedChain 1
        [{ root := 1, kind := { type := .field, index := 1 },
           info := { ownership_var := 2, group_var := 2 } }] = true :=
  c6_splitPath_wellFormed (.record (.fieldAccess (.value none) 0) 1) allocatorNew
    { arg := { ownership_var := 0, group_var := 0 },
      result := { ownership_var := 1, group_var := 1 },
      src := [{ root := 0, kind := { type := .field, index := 0 },
                info := { ownership_var := 3, group_var := 3 } }],
      dest := [{ root := 1, kind := { type := .field, index := 1 },
                 info := { ownership_var := 2, group_var := 2 } }] }
    { nextOwnership := 4, nextGroup := 4 } rfl

/-! ## Allocator freshness across paths (C1) -/

theorem splitPath_arg_result (v : SymValue) (a : Allocator) (p : DataFlowPath)
    (a2 : Allocator) (h : splitPath v a = some (p, a2)) :
    p.arg = a.nextTypeVariableInfo.1 ∧
      p.result = a.nextTypeVariableInfo.2.nextTypeVariableInfo.1 := by
  simp only [splitPath] at h
  cases hb : SymValue.buildSource
      (peelRecords a.nextTypeVariableInfo.2.nextTypeVariableInfo.1.group_var v []
        a.nextTypeVariableInfo.2.nextTypeVariableInfo.2).1
      a.nextTypeVariableInfo.1
      (peelRecords a.nextTypeVariableInfo.2.nextTypeVariableInfo.1.group_var v []
        a.nextTypeVariableInfo.2.nextTypeVariableInfo.2).2.2 with
  | none => rw [hb] at h; simp at h
  | some q =>
    rw [hb] at h
    simp only [Option.some.injEq, Prod.mk.injEq] at h
    obtain ⟨hp, -⟩ := h
    subst hp
    exact ⟨rfl, rfl⟩

theorem finalizeStep_arg_result (acc acc2 : List DataFlowPath) (sv : SymValue)
    (h : finalizeStep acc sv = some acc2)
    (hacc : ∀ p ∈ acc, p.arg = ⟨0, 0⟩ ∧ p.result = ⟨1, 1⟩) :
    ∀ p ∈ acc2, p.arg = ⟨0, 0⟩ ∧ p.result = ⟨1, 1⟩ := by
  simp only [finalizeStep] at h
  by_cases hv : (SymValue.normalizeRun sv).isValid = true
  · rw [if_pos hv] at h
    cases hs : splitPath sv.normalizeRun allocatorNew with
    | none => rw [hs] at h; simp at h
    | some pq =>
      rw [hs] at h
      simp only [Option.bind_eq_bind, Option.some_bind, Option.pure_def,
        Option.some.injEq] at h
      subst h
      intro p hp
      rcases List.mem_append.mp hp with hmem | hmem
      · exact hacc p hmem
      · have hpq := List.mem_singleton.mp hmem
        subst hpq
        exact splitPath_arg_result _ _ _ _ hs
  · rw [if_neg hv] at h
    simp only [Option.pure_def, Option.some.injEq] at h
    subst h
    exact hacc

theorem finalizePaths_go_arg_result (svs : List SymValue) :
    ∀ (acc res : List DataFlowPath),
      svs.foldlM finalizeStep acc = some res →
      (∀ p ∈ acc, p.arg = ⟨0, 0⟩ ∧ p.result = ⟨1, 1⟩) →
      ∀ p ∈ res, p.arg = ⟨0, 0⟩ ∧ p.result = ⟨1, 1⟩ := by
  induction svs with
  | nil =>
    intro acc res h hacc
    simp only [List.foldlM_nil, Option.pure_def, Option.some.injEq] at h
    subst h
    exact hacc
  | cons sv rest ih =>
    intro acc res h hacc
    rw [List.foldlM_cons] at h
    cases hs : finalizeStep acc sv with
    | none => rw [hs] at h; simp at h
    | some acc2 =>
      rw [hs] at h
      simp only [Option.bind_eq_bind, Option.some_bind] at h
      exact ih acc2 res h (finalizeStep_arg_result acc acc2 sv hs hacc)

/-- C1 counterexample: two surviving paths of one function. The source
constructs a fresh Allocator for each splitPath call, so both paths receive
the very same arg and result TypeVariableInfo identities (0,0) and (1,1)
rather than distinct ones, while threading one shared allocator through both
calls, as the claim describes, would give the second path the identities
(2,2) and (3,3). -/
theorem c1_counterexample :
    finalizePaths [.value none, .value none] =
        some [{ arg := ⟨0, 0⟩, result := ⟨1, 1⟩, src := [], dest := [] },
              { arg := ⟨0, 0⟩, result := ⟨1, 1⟩, src := [], dest := [] }] ∧
      ({ arg := ⟨0, 0⟩, result := ⟨1, 1⟩, src := [], dest := [] } : DataFlowPath).arg =
        ({ arg := ⟨0, 0⟩, result := ⟨1, 1⟩, src := [], dest := [] } : DataFlowPath).arg ∧
      finalizePathsSharedSpec [.value none, .value none] =
        some [{ arg := ⟨0, 0⟩, result := ⟨1, 1⟩, src := [], dest := [] },
              { arg := ⟨2, 2⟩, result := ⟨3, 3⟩, src := [], dest := [] }] := by
  refine ⟨?_, rfl, ?_⟩ <;> rfl

/-- C1 amended: a fresh Allocator instance is constructed for every call to
splitPath, one per surviving path, instead of one shared per function; hence
every emitted DataFlowPath carries the first two pairs of its own allocator,
arg = (0,0) and result = (1,1), and identities across different paths of one
function coincide instead of being distinct. -/
theorem c1_fresh_allocator_per_path (svs : List SymValue) (res : List DataFlowPath)
    (h : finalizePaths svs = some res) :
    ∀ p ∈ res, p.arg = ⟨0, 0⟩ ∧ p.result = ⟨1, 1⟩ :=
  finalizePaths_go_arg_result svs [] res h (by intro p hp; simp at hp)

/-- C1 witness: the amended theorem applied at a one-path input. -/
theorem c1_fresh_allocator_per_path_witness :
    ({ arg := ⟨0, 0⟩, result := ⟨1, 1⟩, src := [], dest := [] } : DataFlowPath).arg = ⟨0, 0⟩ ∧
      ({ arg := ⟨0, 0⟩, result := ⟨1, 1⟩, src := [], dest := [] } : DataFlowPath).result
        = ⟨1, 1⟩ :=
  c1_fresh_allocator_per_path [.value none]
    [{ arg := ⟨0, 0⟩, result := ⟨1, 1⟩, src := [], dest := [] }] rfl
    { arg := ⟨0, 0⟩, result := ⟨1, 1⟩, src := [], dest := [] } (by simp)

/-! ## Characterization of the path table construction (C2) -/

/-- Contribution of a list of dependencies as the spec describes it: for each
dependency in order, every recorded path of that dependency extended with the
item appended, concatenated. -/
def crossContributionSpec (table : PathTable) (item : Nat) : List Nat → Option (List (List Nat))
  | [] => some []
  | d :: rest => do
    let dp ← table.lookup d
    let more ← crossContributionSpec table item rest
    pure (dp.map (fun p => p ++ [item]) ++ more)

theorem crossGroupContribution_go (gitems : List Nat) (table : PathTable) (item : Nat)
    (l : List Nat) :
    ∀ acc : List (List Nat),
      l.foldlM
        (fun acc dep =>
          if gitems.contains dep then pure acc
          else do
            let depPaths ← table.lookup dep
            pure (acc ++ depPaths.map (fun p => p ++ [item])))
        acc
      = (crossContributionSpec table item (l.filter (fun d => !gitems.contains d))).map
          (fun c => acc ++ c) := by
  induction l with
  | nil => intro acc; simp [crossContributionSpec]
  | cons d rest ih =>
    intro acc
    by_cases hd : gitems.contains d = true
    · rw [List.foldlM_cons]
      simp only [hd, if_true, List.filter_cons, Bool.not_true, Bool.false_eq_true, if_false,
        Option.pure_def, Option.bind_eq_bind, Option.some_bind]
      exact ih acc
    · have hd2 : gitems.contains d = false := by simpa using hd
      rw [List.foldlM_cons]
      simp only [hd2, Bool.false_eq_true, if_false, List.filter_cons, Bool.not_false, if_true]
      cases hl : table.lookup d with
      | none => simp [crossContributionSpec, hl]
      | some dp =>
        have ih2 := ih (acc ++ dp.map (fun p => p ++ [item]))
        simp only [Option.pure_def, Option.bind_eq_bind] at ih2
        simp only [hl, crossContributionSpec, Option.bind_eq_bind, Option.some_bind,
          Option.pure_def, ih2]
        cases hm : crossContributionSpec table item
            (rest.filter (fun d => !gitems.contains d)) with
        | none => simp
        | some more => simp [List.append_assoc]

theorem crossGroupContribution_eq_spec (gitems : List Nat) (deps : Nat → List Nat)
    (table : PathTable) (item : Nat) :
    crossGroupContribution gitems deps table item
      = crossContributionSpec table item ((deps item).filter (fun d => !gitems.contains d)) := by
  rw [crossGroupContribution, crossGroupContribution_go]
  cases crossContributionSpec table item ((deps item).filter (fun d => !gitems.contains d)) with
  | none => rfl
  | some c => simp

/-- C2 counterexample: in the group [0, 1] with dependencies 0 → [1] and
1 → [0], the item 0 has dependencies, but none outside its own group; the
source seeds the singleton path only when the dependency list is empty, so the
entry of 0 is the empty list rather than [[0]]. -/
theorem c2_counterexample :
    createPathTable [[0, 1]] (fun n => if n = 0 then [1] else if n = 1 then [0] else [])
        = some [(1, []), (0, [])] ∧
      List.lookup 0 [((1 : Nat), ([] : List (List Nat))), (0, [])] = some [] ∧
      (fun n => if n = 0 then [1] else if n = 1 then [0] else []) 0 = [1] ∧
      [0, 1].contains 1 = true := by
  exact ⟨rfl, rfl, rfl, rfl⟩

/-- C2 amended: the entry assigned to an item is the singleton path [[item]]
exactly when the item has no dependencies at all; when it has dependencies,
the entry is built from the dependencies outside the current group only, each
contributing every one of its recorded paths extended with the item appended,
and dependencies inside the current group contribute nothing. An item whose
dependencies all lie inside its own group therefore receives the empty entry,
not the singleton. -/
theorem c2_path_table_characterization (gitems : List Nat) (deps : Nat → List Nat)
    (table table2 : PathTable) (item : Nat)
    (h : processItem gitems deps table item = some table2) :
    (deps item = [] → table2.lookup item = some [[item]]) ∧
      (deps item ≠ [] →
        ∃ c, crossContributionSpec table item
              ((deps item).filter (fun d => !gitems.contains d)) = some c ∧
          table2.lookup item = some c) := by
  constructor
  · intro hd
    rw [processItem, if_pos hd] at h
    simp only [Option.some.injEq] at h
    subst h
    simp [List.lookup]
  · intro hd
    rw [processItem, if_neg hd] at h
    rw [crossGroupContribution_eq_spec] at h
    cases hm : crossContributionSpec table item
        ((deps item).filter (fun d => !gitems.contains d)) with
    | none => rw [hm] at h; simp at h
    | some c =>
      rw [hm] at h
      simp only [Option.bind_eq_bind, Option.some_bind, Option.pure_def,
        Option.some.injEq] at h
      subst h
      exact ⟨c, rfl, by simp [List.lookup]⟩

/-- C2 witness: the amended characterization applied at a concrete item with
one in-group and one cross-group dependency. -/
theorem c2_path_table_characterization_witness :
    (((fun n => if n = 5 then [1, 2] else ([] : List Nat)) 5) = [] →
        List.lookup 5 [((5 : Nat), [[9, 5]]), (2, [[9]])] = some [[5]]) ∧
      (((fun n => if n = 5 then [1, 2] else ([] : List Nat)) 5) ≠ [] →
        ∃ c,
          crossContributionSpec [(2, [[9]])] 5
              ((((fun n => if n = 5 then [1, 2] else ([] : List Nat)) 5).filter
                (fun d => !(([1] : List Nat).contains d)))) = some c ∧
          List.lookup 5 [((5 : Nat), [[9, 5]]), (2, [[9]])] = some c) :=
  c2_path_table_characterization [1] (fun n => if n = 5 then [1, 2] else [])
    [(2, [[9]])] [(5, [[9, 5]]), (2, [[9]])] 5 rfl

/-! ## Memoized renaming of the Normalizer (C10) -/

theorem lookup_mem_pair : ∀ {l : List (Nat × Nat)} {k v : Nat},
    l.lookup k = some v → (k, v) ∈ l := by
  intro l
  induction l with
  | nil => intro k v h; simp at h
  | cons kv rest ih =>
    intro k v h
    obtain ⟨a, b⟩ := kv
    rw [List.lookup_cons] at h
    by_cases hk : (k == a) = true
    · simp only [hk] at h
      obtain rfl := Option.some.injEq .. ▸ h
      have : k = a := by simpa using hk
      subst this
      simp
    · have hk2 : (k == a) = false := by simpa using hk
      simp only [hk2] at h
      exact List.mem_cons_of_mem _ (ih h)

theorem lookup_cons_ne {l : List (Nat × Nat)} {a k v : Nat} (h : a ≠ k) :
    ((k, v) :: l).lookup a = l.lookup a := by
  rw [List.lookup_cons]
  have : (a == k) = false := by simpa using h
  simp only [this]

theorem memo_lookup_lt {tbl : List (Nat × Nat)} {c k v : Nat} (hinv : MemoInv tbl c)
    (h : tbl.lookup k = some v) : v < c :=
  hinv.1 _ (lookup_mem_pair h)

theorem memo_lookup_inj {tbl : List (Nat × Nat)} {c x y v : Nat} (hinv : MemoInv tbl c)
    (hx : tbl.lookup x = some v) (hy : tbl.lookup y = some v) : x = y := by
  have := List.inj_on_of_nodup_map hinv.2 (lookup_mem_pair hx) (lookup_mem_pair hy) rfl
  exact congrArg Prod.fst this

theorem normalizeOwnershipVar_some (n : Normalizer) (x v : Nat)
    (h : n.ownership_vars.lookup x = some v) : n.normalizeOwnershipVar x = (v, n) := by
  rw [Normalizer.normalizeOwnershipVar, h]

theorem normalizeOwnershipVar_none (n : Normalizer) (x : Nat)
    (h : n.ownership_vars.lookup x = none) :
    n.normalizeOwnershipVar x = (n.allocator.nextOwnership,
      { n with allocator := { n.allocator with nextOwnership := n.allocator.nextOwnership + 1 },
               ownership_vars := (x, n.allocator.nextOwnership) :: n.ownership_vars }) := by
  rw [Normalizer.normalizeOwnershipVar, h]
  rfl

theorem normalizeGroupVar_some (n : Normalizer) (x v : Nat)
    (h : n.group_vars.lookup x = some v) : n.normalizeGroupVar x = (v, n) := by
  rw [Normalizer.normalizeGroupVar, h]

theorem normalizeGroupVar_none (n : Normalizer) (x : Nat)
    (h : n.group_vars.lookup x = none) :
    n.normalizeGroupVar x = (n.allocator.nextGroup,
      { n with allocator := { n.allocator with nextGroup := n.allocator.nextGroup + 1 },
               group_vars := (x, n.allocator.nextGroup) :: n.group_vars }) := by
  rw [Normalizer.normalizeGroupVar, h]
  rfl

/-- C10: within one Normalizer, normalizeOwnershipVar and normalizeGroupVar
are memoized: a repeated call with the same variable returns the same
canonical variable and the same state, and, under the allocator invariant
that memoized values are below the counter and pairwise distinct, calls with
distinct variables return distinct canonical variables, so the renaming
preserves equality and sharing of variables. -/
theorem c10_normalizer_memoization (n : Normalizer) (x y : Nat)
    (hinv : NormalizerInv n) (hxy : x ≠ y) :
    (n.normalizeOwnershipVar x).2.normalizeOwnershipVar x
        = ((n.normalizeOwnershipVar x).1, (n.normalizeOwnershipVar x).2) ∧
      ((n.normalizeOwnershipVar x).2.normalizeOwnershipVar y).1
        ≠ (n.normalizeOwnershipVar x).1 ∧
      (n.normalizeGroupVar x).2.normalizeGroupVar x
        = ((n.normalizeGroupVar x).1, (n.normalizeGroupVar x).2) ∧
      ((n.normalizeGroupVar x).2.normalizeGroupVar y).1
        ≠ (n.normalizeGroupVar x).1 := by
  obtain ⟨hio, hig⟩ := hinv
  refine ⟨?_, ?_, ?_, ?_⟩
  · cases h1 : n.ownership_vars.lookup x with
    | some v =>
      rw [normalizeOwnershipVar_some n x v h1]
      exact normalizeOwnershipVar_some n x v h1
    | none =>
      rw [normalizeOwnershipVar_none n x h1]
      apply normalizeOwnershipVar_some
      rw [List.lookup_cons]
      simp
  · cases h1 : n.ownership_vars.lookup x with
    | some v1 =>
      rw [normalizeOwnershipVar_some n x v1 h1]
      cases h2 : n.ownership_vars.lookup y with
      | some v2 =>
        rw [normalizeOwnershipVar_some n y v2 h2]
        intro hv
        exact hxy (memo_lookup_inj hio h1 ((show v2 = v1 from hv) ▸ h2))
      | none =>
        rw [normalizeOwnershipVar_none n y h2]
        exact Ne.symm (Nat.ne_of_lt (memo_lookup_lt hio h1))
    | none =>
      simp only [Normalizer.normalizeOwnershipVar, h1, Allocator.nextOwnershipVar]
      rw [lookup_cons_ne (Ne.symm hxy)]
      cases h2 : n.ownership_vars.lookup y with
      | some v2 =>
        simp only [h2]
        exact Nat.ne_of_lt (memo_lookup_lt hio h2)
      | none =>
        simp only [h2]
        exact Nat.succ_ne_self _
  · cases h1 : n.group_vars.lookup x with
    | some v =>
      rw [normalizeGroupVar_some n x v h1]
      exact normalizeGroupVar_some n x v h1
    | none =>
      rw [normalizeGroupVar_none n x h1]
      apply normalizeGroupVar_some
      rw [List.lookup_cons]
      simp
  · cases h1 : n.group_vars.lookup x with
    | some v1 =>
      rw [normalizeGroupVar_some n x v1 h1]
      cases h2 : n.group_vars.lookup y with
      | some v2 =>
        rw [normalizeGroupVar_some n y v2 h2]
        intro hv
        exact hxy (memo_lookup_inj hig h1 ((show v2 = v1 from hv) ▸ h2))
      | none =>
        rw [normalizeGroupVar_none n y h2]
        exact Ne.symm (Nat.ne_of_lt (memo_lookup_lt hig h1))
    | none =>
      simp only [Normalizer.normalizeGroupVar, h1, Allocator.nextGroupVar]
      rw [lookup_cons_ne (Ne.symm hxy)]
      cases h2 : n.group_vars.lookup y with
      | some v2 =>
        simp only [h2]
        exact Nat.ne_of_lt (memo_lookup_lt hig h2)
      | none =>
        simp only [h2]
        exact Nat.succ_ne_self _

/-- C10 witness: the memoization theorem applied to a fresh normalizer and
the distinct variables 0 and 1. -/
theorem c10_normalizer_memoization_witness :
    (Normalizer.new.normalizeOwnershipVar 0).2.normalizeOwnershipVar 0
        = ((Normalizer.new.normalizeOwnershipVar 0).1,
           (Normalizer.new.normalizeOwnershipVar 0).2) ∧
      ((Normalizer.new.normalizeOwnershipVar 0).2.normalizeOwnershipVar 1).1
        ≠ (Normalizer.new.normalizeOwnershipVar 0).1 ∧
      (Normalizer.new.normalizeGroupVar 0).2.normalizeGroupVar 0
        = ((Normalizer.new.normalizeGroupVar 0).1,
           (Normalizer.new.normalizeGroupVar 0).2) ∧
      ((Normalizer.new.normalizeGroupVar 0).2.normalizeGroupVar 1).1
        ≠ (Normalizer.new.normalizeGroupVar 0).1 :=
  c10_normalizer_memoization Normalizer.new 0 1
    (by refine ⟨⟨?_, ?_⟩, ⟨?_, ?_⟩⟩ <;> simp [Normalizer.new]) (by decide)

/-! ## Determinism and atomicity of signature normalization (C8, C9) -/

/-- C8: signature normalization is deterministic: two runs on equal
pre-renaming inputs produce identical canonical signatures. In this embedding
the pipeline is a pure function of its four inputs, mirroring the source,
which iterates only over lists and insertion-ordered dictionaries. -/
theorem c8_normalization_deterministic (fuel : Nat)
    (s1 s2 : FunctionOwnershipSignature)
    (d1 d2 : GroupVar → Option (List OwnershipVar))
    (m1 m2 : List MemberInfo)
    (o1 o2 : OwnershipVar → Option OwnershipKind)
    (hs : s1 = s2) (hd : d1 = d2) (hm : m1 = m2) (ho : o1 = o2) :
    normalizeFunctionOwnershipSignature fuel s1 d1 m1 o1
      = normalizeFunctionOwnershipSignature fuel s2 d2 m2 o2 := by
  subst hs
  subst hd
  subst hm
  subst ho
  rfl

/-- C8 witness: determinism applied at a concrete one-argument input. -/
theorem c8_normalization_deterministic_witness :
    normalizeFunctionOwnershipSignature 1
        { args := [⟨10, 100⟩], result := ⟨11, 101⟩, members := [], borrows := [],
          allocator := allocatorNew }
        (fun g => if g = 100 then some [20] else none)
        [{ root := 100, kind := { type := .field, index := 0 }, info := ⟨20, 200⟩ }]
        (fun o => if o = 20 then some (.borrow 100) else none)
      = normalizeFunctionOwnershipSignature 1
        { args := [⟨10, 100⟩], result := ⟨11, 101⟩, members := [], borrows := [],
          allocator := allocatorNew }
        (fun g => if g = 100 then some [20] else none)
        [{ root := 100, kind := { type := .field, index := 0 }, info := ⟨20, 200⟩ }]
        (fun o => if o = 20 then some (.borrow 100) else none) :=
  c8_normalization_deterministic 1 _ _ _ _ _ _ _ _ rfl rfl rfl rfl

/-- C9: signature normalization is atomic on error: when any dictionary
lookup (or the recursive member collection) fails, the signature object is
returned unchanged, because the source assigns the signature fields only
after every lookup has succeeded. -/
theorem c9_atomic_on_error (fuel : Nat) (sig : FunctionOwnershipSignature)
    (depMap : GroupVar → Option (List OwnershipVar)) (members : List MemberInfo)
    (ownerships : OwnershipVar → Option OwnershipKind)
    (h : (normalizeFunctionOwnershipSignatureRun fuel sig depMap members ownerships).1
      = none) :
    (normalizeFunctionOwnershipSignatureRun fuel sig depMap members ownerships).2 = sig := by
  rw [normalizeFunctionOwnershipSignatureRun] at h ⊢
  cases hf : filterOutBorrowingMembers sig depMap members ownerships with
  | none => simp only [hf]
  | some fb =>
    simp only [hf] at h ⊢
    cases hc : sig.args.foldlM
        (fun st arg => do
          let p ← collectChildMembers fuel st.2 arg.group_var fb.1
          pure (st.1 ++ p.1, p.2))
        (([] : List MemberInfo), (normalizerAfterHeader sig).2) with
    | none => simp only [hc]
    | some q =>
      rw [hc] at h
      exact absurd h (Option.some_ne_none _)

/-- C9 witness: with fuel 0 the member collection of a one-argument signature
fails, and the run returns the input signature unchanged. -/
theorem c9_atomic_on_error_witness :
    (normalizeFunctionOwnershipSignatureRun 0
        { args := [⟨10, 100⟩], result := ⟨11, 101⟩, members := [], borrows := [],
          allocator := allocatorNew }
        (fun _ => none) [] (fun _ => none)).2
      = { args := [⟨10, 100⟩], result := ⟨11, 101⟩, members := [], borrows := [],
          allocator := allocatorNew } :=
  c9_atomic_on_error 0 _ _ _ _ rfl

/-! ## Properties of the sibling sort -/

theorem insertByIndex_perm (m : MemberInfo) (l : List MemberInfo) :
    (insertByIndex m l).Perm (m :: l) := by
  induction l with
  | nil => simp [insertByIndex]
  | cons x xs ih =>
    rw [insertByIndex]
    by_cases hlt : m.kind.index < x.kind.index
    · rw [if_pos hlt]
    · rw [if_neg hlt]
      exact (ih.cons x).trans (List.Perm.swap m x xs)

theorem sortChildren_perm (ms : List MemberInfo) : (sortChildren ms).Perm ms := by
  suffices hgen : ∀ (l acc : List MemberInfo),
      (l.foldl (fun acc m => insertByIndex m acc) acc).Perm (acc ++ l) by
    simpa using hgen ms []
  intro l
  induction l with
  | nil => intro acc; simp
  | cons m rest ih =>
    intro acc
    rw [List.foldl_cons]
    refine (ih (insertByIndex m acc)).trans ?_
    have h1 : (insertByIndex m acc ++ rest).Perm ((m :: acc) ++ rest) :=
      (insertByIndex_perm m acc).append_right rest
    refine h1.trans ?_
    have h2 : ((m :: acc) ++ rest).Perm (acc ++ m :: rest) := by
      simpa using List.perm_middle.symm
    exact h2

theorem insertByIndex_sorted (m : MemberInfo) (l : List MemberInfo)
    (h : l.Pairwise (fun a b => a.kind.index ≤ b.kind.index)) :
    (insertByIndex m l).Pairwise (fun a b => a.kind.index ≤ b.kind.index) := by
  induction l with
  | nil => simp [insertByIndex]
  | cons x xs ih =>
    rw [List.pairwise_cons] at h
    obtain ⟨hx, hxs⟩ := h
    rw [insertByIndex]
    by_cases hlt : m.kind.index < x.kind.index
    · rw [if_pos hlt]
      refine List.Pairwise.cons ?_ (List.Pairwise.cons hx hxs)
      intro y hy
      rcases List.mem_cons.mp hy with hy | hy
      · subst hy; omega
      · have := hx y hy; omega
    · rw [if_neg hlt]
      refine List.Pairwise.cons ?_ (ih hxs)
      intro y hy
      have hy2 : y ∈ m :: xs := (insertByIndex_perm m xs).mem_iff.mp hy
      rcases List.mem_cons.mp hy2 with hy2 | hy2
      · subst hy2; omega
      · exact hx y hy2

/-- The sibling lists used by member collection are sorted ascending by field
index. -/
theorem sortChildren_sorted (ms : List MemberInfo) :
    (sortChildren ms).Pairwise (fun a b => a.kind.index ≤ b.kind.index) := by
  suffices hgen : ∀ (l acc : List MemberInfo),
      acc.Pairwise (fun a b => a.kind.index ≤ b.kind.index) →
      (l.foldl (fun acc m => insertByIndex m acc) acc).Pairwise
        (fun a b => a.kind.index ≤ b.kind.index) by
    exact hgen ms [] (by simp)
  intro l
  induction l with
  | nil => intro acc hacc; simpa using hacc
  | cons m rest ih =>
    intro acc hacc
    rw [List.foldl_cons]
    exact ih _ (insertByIndex_sorted m acc hacc)

/-- C4 counterexample: an input whose member list contains a member (field 0)
whose own ownership variable 20 is Owner, not Borrow, but whose group 200
depends on the borrow 21; the normalized signature retains a renamed clone of
it (the member with kind index 0), so a member whose ownership variable is
not a borrow is not excluded. -/
theorem c4_counterexample :
    normalizeFunctionOwnershipSignature 3
        { args := [⟨10, 100⟩], result := ⟨11, 101⟩, members := [], borrows := [],
          allocator := allocatorNew }
        (fun g => if g = 100 then some [20, 21] else if g = 200 then some [21]
                  else if g = 201 then some [] else none)
        [{ root := 100, kind := { type := .field, index := 0 }, info := ⟨20, 200⟩ },
         { root := 100, kind := { type := .field, index := 1 }, info := ⟨21, 201⟩ }]
        (fun o => if o = 20 then some .owner else if o = 21 then some (.borrow 100) else none)
      = some { args := [⟨0, 0⟩], result := ⟨1, 1⟩,
               members := [{ root := 0, kind := { type := .field, index := 0 },
                             info := ⟨2, 2⟩ },
                           { root := 0, kind := { type := .field, index := 1 },
                             info := ⟨3, 3⟩ }],
               borrows := [21],
               allocator := { nextOwnership := 4, nextGroup := 4 } } ∧
      (fun o => if o = 20 then some OwnershipKind.owner
                else if o = 21 then some (OwnershipKind.borrow 100) else none) 20
        = some OwnershipKind.owner ∧
      OwnershipKind.isBorrow OwnershipKind.owner = false :=
  ⟨rfl, rfl, rfl⟩

/-! ## Member collection as renaming of the canonical order (C7, C4) -/

theorem renameMembers_go (ms : List MemberInfo) :
    ∀ (acc : List MemberInfo) (n : Normalizer),
      ms.foldl (fun st m => let p := st.2.renameMember m; (st.1 ++ [p.1], p.2)) (acc, n)
        = (acc ++ (Normalizer.renameMembers n ms).1, (Normalizer.renameMembers n ms).2) := by
  induction ms with
  | nil =>
    intro acc n
    simp [Normalizer.renameMembers]
  | cons m rest ih =>
    intro acc n
    rw [List.foldl_cons]
    show rest.foldl _ (acc ++ [(n.renameMember m).1], (n.renameMember m).2) = _
    rw [ih]
    have hr : Normalizer.renameMembers n (m :: rest)
        = (([(n.renameMember m).1] : List MemberInfo)
            ++ (Normalizer.renameMembers (n.renameMember m).2 rest).1,
           (Normalizer.renameMembers (n.renameMember m).2 rest).2) := by
      show List.foldl _ ([], n) (m :: rest) = _
      rw [List.foldl_cons]
      show rest.foldl _ (([] : List MemberInfo) ++ [(n.renameMember m).1],
        (n.renameMember m).2) = _
      rw [ih]
      rfl
    rw [hr]
    simp [List.append_assoc]

theorem renameMembers_append (n : Normalizer) (xs ys : List MemberInfo) :
    Normalizer.renameMembers n (xs ++ ys)
      = ((Normalizer.renameMembers n xs).1
          ++ (Normalizer.renameMembers (Normalizer.renameMembers n xs).2 ys).1,
         (Normalizer.renameMembers (Normalizer.renameMembers n xs).2 ys).2) := by
  show List.foldl _ ([], n) (xs ++ ys) = _
  rw [List.foldl_append]
  show List.foldl _
    ((Normalizer.renameMembers n xs).1, (Normalizer.renameMembers n xs).2) ys = _
  rw [renameMembers_go]

theorem collect_spec_go {α : Type} (f : Nat) (members : List MemberInfo)
    (key : α → GroupVar)
    (ihf : ∀ (n : Normalizer) (var : GroupVar) (out : List MemberInfo × Normalizer),
      collectChildMembers f n var members = some out →
      ∃ spec, collectChildMembersSpec f var members = some spec ∧
        Normalizer.renameMembers n spec = out) :
    ∀ (l : List α) (accSpec : List MemberInfo) (n : Normalizer)
      (out : List MemberInfo × Normalizer),
      l.foldlM
          (fun st x => do
            let p ← collectChildMembers f st.2 (key x) members
            pure (st.1 ++ p.1, p.2))
          (Normalizer.renameMembers n accSpec) = some out →
      ∃ spec,
        l.foldlM
            (fun acc x => do
              let more ← collectChildMembersSpec f (key x) members
              pure (acc ++ more))
            accSpec = some spec ∧
          Normalizer.renameMembers n spec = out := by
  intro l
  induction l with
  | nil =>
    intro accSpec n out h
    simp only [List.foldlM_nil, Option.pure_def, Option.some.injEq] at h
    exact ⟨accSpec, by simp, h⟩
  | cons x rest ih =>
    intro accSpec n out h
    rw [List.foldlM_cons] at h
    cases hc : collectChildMembers f (Normalizer.renameMembers n accSpec).2
        (key x) members with
    | none =>
      rw [hc] at h
      simp at h
    | some p =>
      rw [hc] at h
      simp only [Option.bind_eq_bind, Option.some_bind, Option.pure_def] at h
      obtain ⟨specMore, hsm, hrm⟩ := ihf _ _ _ hc
      have hstate : ((Normalizer.renameMembers n accSpec).1 ++ p.1, p.2)
          = Normalizer.renameMembers n (accSpec ++ specMore) := by
        rw [renameMembers_append, hrm]
      rw [hstate] at h
      obtain ⟨spec, hs2, hr2⟩ := ih (accSpec ++ specMore) n out h
      refine ⟨spec, ?_, hr2⟩
      rw [List.foldlM_cons, hsm]
      simp only [Option.bind_eq_bind, Option.some_bind, Option.pure_def]
      exact hs2

theorem collectChildMembers_eq_spec : ∀ (fuel : Nat) (members : List MemberInfo)
    (n : Normalizer) (var : GroupVar) (out : List MemberInfo × Normalizer),
    collectChildMembers fuel n var members = some out →
    ∃ spec, collectChildMembersSpec fuel var members = some spec ∧
      Normalizer.renameMembers n spec = out := by
  intro fuel
  induction fuel with
  | zero =>
    intro members n var out h
    simp [collectChildMembers] at h
  | succ f ihf =>
    intro members n var out h
    rw [collectChildMembers] at h
    rw [collectChildMembersSpec]
    exact collect_spec_go f members (fun child => child.info.group_var) (ihf members)
      (sortChildren (members.filter (fun m => m.root == var)))
      (sortChildren (members.filter (fun m => m.root == var))) n out h

theorem spec_fold_sub {α : Type} (f : Nat) (members : List MemberInfo) (key : α → GroupVar)
    (ihf : ∀ (var : GroupVar) (spec : List MemberInfo),
      collectChildMembersSpec f var members = some spec → ∀ m ∈ spec, m ∈ members) :
    ∀ (l : List α) (acc : List MemberInfo), (∀ m ∈ acc, m ∈ members) →
      ∀ spec,
        l.foldlM
            (fun acc x => do
              let more ← collectChildMembersSpec f (key x) members
              pure (acc ++ more))
            acc = some spec →
        ∀ m ∈ spec, m ∈ members := by
  intro l
  induction l with
  | nil =>
    intro acc hacc spec h
    simp only [List.foldlM_nil, Option.pure_def, Option.some.injEq] at h
    subst h
    exact hacc
  | cons x rest ih =>
    intro acc hacc spec h
    rw [List.foldlM_cons] at h
    cases hc : collectChildMembersSpec f (key x) members with
    | none =>
      rw [hc] at h
      simp at h
    | some more =>
      rw [hc] at h
      simp only [Option.bind_eq_bind, Option.some_bind, Option.pure_def] at h
      refine ih (acc ++ more) ?_ spec h
      intro m hm
      rcases List.mem_append.mp hm with hm | hm
      · exact hacc m hm
      · exact ihf (key x) more hc m hm

theorem collectChildMembersSpec_sub : ∀ (fuel : Nat) (members : List MemberInfo)
    (var : GroupVar) (spec : List MemberInfo),
    collectChildMembersSpec fuel var members = some spec → ∀ m ∈ spec, m ∈ members := by
  intro fuel
  induction fuel with
  | zero =>
    intro members var spec h
    simp [collectChildMembersSpec] at h
  | succ f ihf =>
    intro members var spec h
    rw [collectChildMembersSpec] at h
    refine spec_fold_sub f members (fun child => child.info.group_var) (ihf members)
      (sortChildren (members.filter (fun m => m.root == var)))
      (sortChildren (members.filter (fun m => m.root == var))) ?_ spec h
    intro m hm
    exact List.mem_of_mem_filter ((sortChildren_perm _).mem_iff.mp hm)

theorem memberOrderSpec_sub (fuel : Nat) (args : List TypeVariableInfo)
    (members : List MemberInfo) (spec : List MemberInfo)
    (h : memberOrderSpec fuel args members = some spec) : ∀ m ∈ spec, m ∈ members := by
  rw [memberOrderSpec] at h
  exact spec_fold_sub fuel members (fun arg => arg.group_var)
    (collectChildMembersSpec_sub fuel members) args [] (by simp) spec h

/-! ## Properties of the borrow filter -/

theorem relevantMembers_sub (signature : FunctionOwnershipSignature)
    (depMap : GroupVar → Option (List OwnershipVar)) (members : List MemberInfo) :
    ∀ m ∈ relevantMembers signature depMap members, m ∈ members := by
  rw [relevantMembers]
  suffices hgen : ∀ (args : List TypeVariableInfo) (acc : List MemberInfo),
      (∀ m ∈ acc, m ∈ members) →
      ∀ m ∈ args.foldl
        (fun acc arg =>
          match depMap arg.group_var with
          | none => acc
          | some vars => acc ++ members.filter (fun m => vars.contains m.info.ownership_var))
        acc, m ∈ members by
    exact hgen signature.args [] (by simp)
  intro args
  induction args with
  | nil => intro acc hacc; simpa using hacc
  | cons arg rest ih =>
    intro acc hacc
    rw [List.foldl_cons]
    cases hd : depMap arg.group_var with
    | none =>
      simp only [hd]
      exact ih acc hacc
    | some vars =>
      simp only [hd]
      refine ih _ ?_
      intro m hm
      rcases List.mem_append.mp hm with hm | hm
      · exact hacc m hm
      · exact List.mem_of_mem_filter hm

theorem borrowsOf_spec (ownerships : OwnershipVar → Option OwnershipKind) :
    ∀ (l : List MemberInfo) (acc : List OwnershipVar),
      (∀ b ∈ acc, ∃ g, ownerships b = some (.borrow g)) →
      ∀ out,
        l.foldlM
            (fun acc m => do
              let k ← ownerships m.info.ownership_var
              pure (if k.isBorrow then acc ++ [m.info.ownership_var] else acc))
            acc = some out →
        ∀ b ∈ out, ∃ g, ownerships b = some (.borrow g) := by
  intro l
  induction l with
  | nil =>
    intro acc hacc out h
    simp only [List.foldlM_nil, Option.pure_def, Option.some.injEq] at h
    subst h
    exact hacc
  | cons m rest ih =>
    intro acc hacc out h
    rw [List.foldlM_cons] at h
    cases hk : ownerships m.info.ownership_var with
    | none =>
      rw [hk] at h
      simp at h
    | some k =>
      rw [hk] at h
      simp only [Option.bind_eq_bind, Option.some_bind, Option.pure_def] at h
      refine ih _ ?_ out h
      intro b hb
      by_cases hik : k.isBorrow = true
      · rw [if_pos hik] at hb
        rcases List.mem_append.mp hb with hb | hb
        · exact hacc b hb
        · have hbm := List.mem_singleton.mp hb
          subst hbm
          cases k with
          | owner => simp [OwnershipKind.isBorrow] at hik
          | borrow g => exact ⟨g, hk⟩
      · rw [if_neg hik] at hb
        exact hacc b hb

theorem onlyBorrowing_spec (depMap : GroupVar → Option (List OwnershipVar))
    (members : List MemberInfo) (borrows : List OwnershipVar) :
    ∀ (l : List MemberInfo) (acc : List MemberInfo),
      (∀ m ∈ l, m ∈ members) →
      (∀ m ∈ acc, m ∈ members ∧
        (borrows.contains m.info.ownership_var = true ∨
          ∃ vars, depMap m.info.group_var = some vars ∧
            vars.any (fun o => borrows.contains o) = true)) →
      ∀ out,
        l.foldlM
            (fun acc m => do
              let vars ← depMap m.info.group_var
              let c := borrows.contains m.info.ownership_var
                || vars.any (fun o => borrows.contains o)
              pure (if c then acc ++ [m] else acc))
            acc = some out →
        ∀ m ∈ out, m ∈ members ∧
          (borrows.contains m.info.ownership_var = true ∨
            ∃ vars, depMap m.info.group_var = some vars ∧
              vars.any (fun o => borrows.contains o) = true) := by
  intro l
  induction l with
  | nil =>
    intro acc hl hacc out h
    simp only [List.foldlM_nil, Option.pure_def, Option.some.injEq] at h
    subst h
    exact hacc
  | cons m rest ih =>
    intro acc hl hacc out h
    rw [List.foldlM_cons] at h
    cases hv : depMap m.info.group_var with
    | none =>
      rw [hv] at h
      simp at h
    | some vars =>
      rw [hv] at h
      simp only [Option.bind_eq_bind, Option.some_bind, Option.pure_def] at h
      refine ih _ (fun x hx => hl x (List.mem_cons_of_mem _ hx)) ?_ out h
      intro x hx
      by_cases hc : (borrows.contains m.info.ownership_var
          || vars.any (fun o => borrows.contains o)) = true
      · rw [if_pos hc] at hx
        rcases List.mem_append.mp hx with hx | hx
        · exact hacc x hx
        · have hxm := List.mem_singleton.mp hx
          subst hxm
          refine ⟨hl x (List.mem_cons_self x rest), ?_⟩
          rcases Bool.or_eq_true _ _ ▸ hc with hc | hc
          · exact Or.inl hc
          · exact Or.inr ⟨vars, hv, hc⟩
      · rw [if_neg hc] at hx
        exact hacc x hx

theorem filterOutBorrowingMembers_spec (signature : FunctionOwnershipSignature)
    (depMap : GroupVar → Option (List OwnershipVar)) (members : List MemberInfo)
    (ownerships : OwnershipVar → Option OwnershipKind)
    (fb : List MemberInfo × List OwnershipVar)
    (h : filterOutBorrowingMembers signature depMap members ownerships = some fb) :
    (∀ b ∈ fb.2, ∃ g, ownerships b = some (.borrow g)) ∧
      (∀ m ∈ fb.1, m ∈ members ∧
        (fb.2.contains m.info.ownership_var = true ∨
          ∃ vars, depMap m.info.group_var = some vars ∧
            vars.any (fun o => fb.2.contains o) = true)) := by
  rw [filterOutBorrowingMembers] at h
  cases hb : borrowsOf (relevantMembers signature depMap members) ownerships with
  | none =>
    rw [hb] at h
    simp at h
  | some borrows =>
    rw [hb] at h
    simp only [Option.bind_eq_bind, Option.some_bind] at h
    cases ho : onlyBorrowing (relevantMembers signature depMap members) depMap borrows with
    | none =>
      rw [ho] at h
      simp at h
    | some obm =>
      rw [ho] at h
      simp only [Option.some_bind, Option.pure_def, Option.some.injEq] at h
      subst h
      constructor
      · exact borrowsOf_spec ownerships _ [] (by simp) borrows hb
      · exact onlyBorrowing_spec depMap members borrows _ []
          (relevantMembers_sub signature depMap members) (by simp) obm ho

/-! ## Main theorems about signature normalization (C7, C4) -/

/-- Decomposition of a successful signature normalization: the borrow filter
succeeded, the emitted borrow set is the filter result, and the emitted
member list is the memberwise renaming, under the state left by renaming the
arguments and the result, of the canonical member order over the
only-borrowing members. -/
theorem normalizeRun_decomposition (fuel : Nat) (sig : FunctionOwnershipSignature)
    (depMap : GroupVar → Option (List OwnershipVar)) (members : List MemberInfo)
    (ownerships : OwnershipVar → Option OwnershipKind)
    (sig2 : FunctionOwnershipSignature)
    (h : normalizeFunctionOwnershipSignature fuel sig depMap members ownerships = some sig2) :
    ∃ fb spec,
      filterOutBorrowingMembers sig depMap members ownerships = some fb ∧
        sig2.borrows = fb.2 ∧
        memberOrderSpec fuel sig.args fb.1 = some spec ∧
        sig2.members = (Normalizer.renameMembers (normalizerAfterHeader sig).2 spec).1 := by
  rw [normalizeFunctionOwnershipSignature, normalizeFunctionOwnershipSignatureRun] at h
  cases hf : filterOutBorrowingMembers sig depMap members ownerships with
  | none =>
    rw [hf] at h
    simp at h
  | some fb =>
    simp only [hf] at h
    cases hc : sig.args.foldlM
        (fun st arg => do
          let p ← collectChildMembers fuel st.2 arg.group_var fb.1
          pure (st.1 ++ p.1, p.2))
        (([] : List MemberInfo), (normalizerAfterHeader sig).2) with
    | none =>
      rw [hc] at h
      simp at h
    | some q =>
      rw [hc] at h
      simp only [Option.some.injEq] at h
      obtain ⟨spec, hs, hr⟩ := collect_spec_go fuel fb.1 (fun arg => arg.group_var)
        (collectChildMembers_eq_spec fuel fb.1) sig.args [] (normalizerAfterHeader sig).2 q hc
      refine ⟨fb, spec, rfl, by rw [← h], hs, ?_⟩
      rw [← h, hr]

/-- C7: on success, the members of the normalized signature are exactly the
memberwise renaming, under the normalizer state left by renaming the
arguments and the result, of the canonical member order: for each argument
group in declaration order, the immediate children sorted ascending by field
index first, then the recursively collected descendants of each child in the
same child order, over the only-borrowing members. -/
theorem c7_member_ordering (fuel : Nat) (sig : FunctionOwnershipSignature)
    (depMap : GroupVar → Option (List OwnershipVar)) (members : List MemberInfo)
    (ownerships : OwnershipVar → Option OwnershipKind)
    (sig2 : FunctionOwnershipSignature)
    (h : normalizeFunctionOwnershipSignature fuel sig depMap members ownerships = some sig2) :
    ∃ fb spec,
      filterOutBorrowingMembers sig depMap members ownerships = some fb ∧
        memberOrderSpec fuel sig.args fb.1 = some spec ∧
        sig2.members = (Normalizer.renameMembers (normalizerAfterHeader sig).2 spec).1 := by
  obtain ⟨fb, spec, hf, -, hs, hm⟩ :=
    normalizeRun_decomposition fuel sig depMap members ownerships sig2 h
  exact ⟨fb, spec, hf, hs, hm⟩

/-- C7 witness: the ordering theorem applied at a concrete two-member
signature. -/
theorem c7_member_ordering_witness :
    ∃ fb spec,
      filterOutBorrowingMembers
          { args := [⟨10, 100⟩], result := ⟨11, 101⟩, members := [], borrows := [],
            allocator := allocatorNew }
          (fun g => if g = 100 then some [20, 21] else if g = 200 then some [21]
                    else if g = 201 then some [] else none)
          [{ root := 100, kind := { type := .field, index := 0 }, info := ⟨20, 200⟩ },
           { root := 100, kind := { type := .field, index := 1 }, info := ⟨21, 201⟩ }]
          (fun o => if o = 20 then some .owner
                    else if o = 21 then some (.borrow 100) else none) = some fb ∧
        memberOrderSpec 3 [⟨10, 100⟩] fb.1 = some spec ∧
        ([{ root := 0, kind := { type := .field, index := 0 }, info := ⟨2, 2⟩ },
          { root := 0, kind := { type := .field, index := 1 }, info := ⟨3, 3⟩ }]
            : List MemberInfo)
          = (Normalizer.renameMembers
              (normalizerAfterHeader
                { args := [⟨10, 100⟩], result := ⟨11, 101⟩, members := [], borrows := [],
                  allocator := allocatorNew }).2 spec).1 :=
  c7_member_ordering 3
    { args := [⟨10, 100⟩], result := ⟨11, 101⟩, members := [], borrows := [],
      allocator := allocatorNew }
    (fun g => if g = 100 then some [20, 21] else if g = 200 then some [21]
              else if g = 201 then some [] else none)
    [{ root := 100, kind := { type := .field, index := 0 }, info := ⟨20, 200⟩ },
     { root := 100, kind := { type := .field, index := 1 }, info := ⟨21, 201⟩ }]
    (fun o => if o = 20 then some .owner else if o = 21 then some (.borrow 100) else none)
    { args := [⟨0, 0⟩], result := ⟨1, 1⟩,
      members := [{ root := 0, kind := { type := .field, index := 0 }, info := ⟨2, 2⟩ },
                  { root := 0, kind := { type := .field, index := 1 }, info := ⟨3, 3⟩ }],
      borrows := [21],
      allocator := { nextOwnership := 4, nextGroup := 4 } } rfl

/-- C4 amended: on success, every ownership variable in the borrows of the
normalized signature is mapped to kind Borrow by the input ownerships map;
the members of the normalized signature are the renamed canonical ordering
of the only-borrowing members, and every one of those pre-renaming members
either has its own ownership variable in the borrow set or has a group whose
ownership dependencies contain a borrow — so a member whose own ownership
variable is not a borrow is retained whenever its group depends on one. -/
theorem c4_borrow_filtering (fuel : Nat) (sig : FunctionOwnershipSignature)
    (depMap : GroupVar → Option (List OwnershipVar)) (members : List MemberInfo)
    (ownerships : OwnershipVar → Option OwnershipKind)
    (sig2 : FunctionOwnershipSignature)
    (h : normalizeFunctionOwnershipSignature fuel sig depMap members ownerships = some sig2) :
    (∀ b ∈ sig2.borrows, ∃ g, ownerships b = some (.borrow g)) ∧
      ∃ fb spec,
        filterOutBorrowingMembers sig depMap members ownerships = some fb ∧
          sig2.borrows = fb.2 ∧
          memberOrderSpec fuel sig.args fb.1 = some spec ∧
          sig2.members = (Normalizer.renameMembers (normalizerAfterHeader sig).2 spec).1 ∧
          ∀ m ∈ spec, m ∈ members ∧
            (fb.2.contains m.info.ownership_var = true ∨
              ∃ vars, depMap m.info.group_var = some vars ∧
                vars.any (fun o => fb.2.contains o) = true) := by
  obtain ⟨fb, spec, hf, hbor, hs, hm⟩ :=
    normalizeRun_decomposition fuel sig depMap members ownerships sig2 h
  obtain ⟨hfb, hfo⟩ := filterOutBorrowingMembers_spec sig depMap members ownerships fb hf
  refine ⟨?_, fb, spec, hf, hbor, hs, hm, ?_⟩
  · intro b hbmem
    exact hfb b (hbor ▸ hbmem)
  · intro m hmem
    have hobm : m ∈ fb.1 := memberOrderSpec_sub fuel sig.args fb.1 spec hs m hmem
    exact hfo m hobm

/-- C4 witness: the amended borrow-filtering theorem applied at a concrete
input with one Owner member whose group depends on a borrow. -/
theorem c4_borrow_filtering_witness :
    (∀ b ∈ ([21] : List OwnershipVar),
      ∃ g, (fun o => if o = 20 then some OwnershipKind.owner
                     else if o = 21 then some (OwnershipKind.borrow 100) else none) b
        = some (OwnershipKind.borrow g)) ∧
      ∃ fb spec,
        filterOutBorrowingMembers
            { args := [⟨10, 100⟩], result := ⟨11, 101⟩, members := [], borrows := [],
              allocator := allocatorNew }
            (fun g => if g = 100 then some [20, 21] else if g = 200 then some [21]
                      else if g = 201 then some [] else none)
            [{ root := 100, kind := { type := .field, index := 0 }, info := ⟨20, 200⟩ },
             { root := 100, kind := { type := .field, index := 1 }, info := ⟨21, 201⟩ }]
            (fun o => if o = 20 then some .owner
                      else if o = 21 then some (.borrow 100) else none) = some fb ∧
          ([21] : List OwnershipVar) = fb.2 ∧
          memberOrderSpec 2 [⟨10, 100⟩] fb.1 = some spec ∧
          ([{ root := 0, kind := { type := .field, index := 0 }, info := ⟨2, 2⟩ },
            { root := 0, kind := { type := .field, index := 1 }, info := ⟨3, 3⟩ }]
              : List MemberInfo)
            = (Normalizer.renameMembers
                (normalizerAfterHeader
                  { args := [⟨10, 100⟩], result := ⟨11, 101⟩, members := [], borrows := [],
                    allocator := allocatorNew }).2 spec).1 ∧
          ∀ m ∈ spec,
            m ∈ [({ root := 100, kind := { type := .field, index := 0 },
                    info := ⟨20, 200⟩ } : MemberInfo),
                 { root := 100, kind := { type := .field, index := 1 }, info := ⟨21, 201⟩ }] ∧
            (fb.2.contains m.info.ownership_var = true ∨
              ∃ vars,
                (fun g => if g = 100 then some [20, 21] else if g = 200 then some [21]
                          else if g = 201 then some [] else none) m.info.group_var
                  = some vars ∧
                vars.any (fun o => fb.2.contains o) = true) :=
  c4_borrow_filtering 2
    { args := [⟨10, 100⟩], result := ⟨11, 101⟩, members := [], borrows := [],
      allocator := allocatorNew }
    (fun g => if g = 100 then some [20, 21] else if g = 200 then some [21]
              else if g = 201 then some [] else none)
    [{ root := 100, kind := { type := .field, index := 0 }, info := ⟨20, 200⟩ },
     { root := 100, kind := { type := .field, index := 1 }, info := ⟨21, 201⟩ }]
    (fun o => if o = 20 then some .owner else if o = 21 then some (.borrow 100) else none)
    { args := [⟨0, 0⟩], result := ⟨1, 1⟩,
      members := [{ root := 0, kind := { type := .field, index := 0 }, info := ⟨2, 2⟩ },
                  { root := 0, kind := { type := .field, index := 1 }, info := ⟨3, 3⟩ }],
      borrows := [21],
      allocator := { nextOwnership := 4, nextGroup := 4 } } rfl

end Ownership
